import Mathlib

/-!
Verification of the fireflies export pipeline.

The repository has two exporter scripts:
* `scripts/fireflies/export_to_pinecone.py` (the REST exporter), and
* `scripts/fireflies/export_to_pinecone_graphql.py` (the GraphQL exporter).

This file shallowly embeds the pure/algorithmic parts of both scripts —
the speaker-turn chunker, the checkpoint filter, `--resume-from`
truncation, the embedding retry loops, the vector-id construction and the
event order of the two main loops — and proves or refutes the spec's
claims about them.
-/

set_option maxRecDepth 4000

/-! ## Data model

The GraphQL exporter's `process_transcript` reads, of each sentence, only
`text` and `speaker_id` (`start_time`/`end_time` are fetched but never
consulted by the chunker), so a sentence is embedded as those two fields.
-/

/-- One utterance of a transcript, as consumed by the GraphQL chunker:
`sentence.get("text", "")` and `sentence.get("speaker_id", 0)`. -/
structure Sentence where
  text : String
  speaker_id : Nat
deriving DecidableEq, Repr

/-- A transcript as returned by `fetch_transcript_details_graphql`:
id, title, date, duration, participants and the ordered sentences.
The `date` field is passed through verbatim into chunk metadata. -/
structure Transcript where
  id : String
  title : String
  date : String
  duration : Nat
  participants : List String
  sentences : List Sentence
deriving DecidableEq, Repr

/-- A maximal run of consecutive sentences with one speaker label
(`{"speaker": ..., "sentences": [...]}` in the script). -/
structure SpeakerBlock where
  speaker : String
  sentences : List Sentence
deriving DecidableEq, Repr

instance : Inhabited SpeakerBlock := ⟨⟨"", []⟩⟩

/-- One output chunk of `process_transcript` (text plus its metadata dict). -/
structure Chunk where
  text : String
  transcript_id : String
  title : String
  speaker : String
  prev_speaker : String
  next_speaker : String
  participants : List String
  recording_date : String
  duration : Nat
  chunk_index : Nat
  total_chunks : Nat
deriving DecidableEq, Repr

/-- `speaker_name = f"Speaker {speaker_id}"` in `process_transcript`. -/
def speakerName (sid : Nat) : String := "Speaker " ++ toString sid

/-! ## The chunker (`process_transcript` of the GraphQL exporter)

The grouping loop keeps `current_speaker` (initially `None`),
`current_block` and the accumulated `speaker_blocks`; a block is closed
when the speaker label changes and the current block is non-empty, and
the final non-empty block is closed at end of input. -/

/-- The sentence-grouping loop of `process_transcript`, with the loop
state made explicit: `cs` is `current_speaker` (`none` initially), `blk`
is `current_block`, `acc` is `speaker_blocks`. -/
def groupGo (cs : Option String) (blk : List Sentence) (acc : List SpeakerBlock) :
    List Sentence → List SpeakerBlock
  | [] => if blk = [] then acc else acc ++ [⟨cs.getD "", blk⟩]
  | s :: rest =>
    let name := speakerName s.speaker_id
    if cs ≠ some name ∧ blk ≠ [] then
      groupGo (some name) [s] (acc ++ [⟨cs.getD "", blk⟩]) rest
    else
      groupGo (some name) (blk ++ [s]) acc rest

/-- `speaker_blocks` as computed by `process_transcript` from the
transcript's sentence list. -/
def mkBlocks (ss : List Sentence) : List SpeakerBlock := groupGo none [] [] ss

/-- The chunk built for index `i` out of `blocks` (the body of the
`for i, block in enumerate(speaker_blocks)` loop): `prev_speaker` /
`next_speaker` come from the adjacent blocks, or the literal string
`"None"` at the ends, and the text space-joins the block's sentences. -/
def mkChunk (t : Transcript) (blocks : List SpeakerBlock) (i : Nat) : Chunk :=
  { text := String.intercalate " " (((blocks.getD i default).sentences).map (·.text))
    transcript_id := t.id
    title := t.title
    speaker := (blocks.getD i default).speaker
    prev_speaker := if i > 0 then (blocks.getD (i - 1) default).speaker else "None"
    next_speaker := if i < blocks.length - 1 then (blocks.getD (i + 1) default).speaker else "None"
    participants := t.participants
    recording_date := t.date
    duration := t.duration
    chunk_index := i
    total_chunks := blocks.length }

/-- `process_transcript` of the GraphQL exporter: group the sentences
into speaker blocks, then emit one chunk per block in order. -/
def process_transcript (t : Transcript) : List Chunk :=
  let blocks := mkBlocks t.sentences
  (List.range blocks.length).map (mkChunk t blocks)

/-! ## Checkpoint filtering and resume-from -/

/-- The REST exporter's `main` filter: when the loaded checkpoint is
non-empty, `remaining_ids = [id for id in transcript_ids if id not in
processed_ids]`; otherwise the listed ids are used unchanged. -/
def restFilter (transcript_ids : List String) (processed_ids : List String) : List String :=
  if processed_ids = [] then transcript_ids
  else transcript_ids.filter (fun tid => decide (tid ∉ processed_ids))

/-- The GraphQL exporter's `main` filter:
`[tid for tid in transcript_ids if tid not in processed_ids or args.force]`. -/
def graphqlFilter (transcript_ids : List String) (processed_ids : List String)
    (force : Bool) : List String :=
  transcript_ids.filter (fun tid => decide (tid ∉ processed_ids) || force)

/-- Python's `list.index` (index of the first occurrence, `None` standing
for the `ValueError` of an absent element). -/
def listIndex (r : String) : List String → Option Nat
  | [] => none
  | x :: xs => if x = r then some 0 else (listIndex r xs).map (· + 1)

/-- `--resume-from` truncation, identical in both exporters:
`resume_index = ids.index(resume_from); ids = ids[resume_index:]`, with a
logged warning and the list left unchanged when the id is absent. -/
def applyResume (ids : List String) (resume_from : String) : List String :=
  match listIndex resume_from ids with
  | some i => ids.drop i
  | none => ids

/-! ## Embedding generation (`create_embedding` of both exporters)

The embedding service is abstracted as an oracle from the attempt number
to `some` vector (success) or `none` (a raised exception); the models
record the returned value, the text submitted on each attempt, and the
back-off delays slept between attempts. -/

/-- Outcome of one `create_embedding` call: the returned value (`none`
models `return None` in the REST script and the re-raised exception in
the GraphQL script), the text submitted per attempt, and the sleep delays
(seconds) between attempts. -/
structure EmbedCall (α : Type) where
  result : Option α
  submissions : List String
  delays : List Nat
deriving DecidableEq, Repr

/-- The REST `create_embedding` preamble: `if not text: text = "Empty
transcript"`, then `if len(text) > 8000: text = text[:8000]`. -/
def prepText (text : String) : String :=
  let t := if text = "" then "Empty transcript" else text
  if t.length > 8000 then String.mk (t.data.take 8000) else t

/-- The REST retry loop `for attempt in range(max_retries)`: success
returns the embedding; a failure sleeps `2 ** attempt` and retries while
attempts remain, and the last failure returns `None`. The second `Nat`
argument counts the attempts still available (3 at the initial call). -/
def restRetryGo (oracle : Nat → Option α) (t : String) : Nat → Nat → EmbedCall α
  | _, 0 => ⟨none, [], []⟩
  | attempt, remaining + 1 =>
    match oracle attempt with
    | some v => ⟨some v, [t], []⟩
    | none =>
      if remaining = 0 then ⟨none, [t], []⟩
      else
        let r := restRetryGo oracle t (attempt + 1) remaining
        ⟨r.result, t :: r.submissions, 2 ^ attempt :: r.delays⟩

/-- `create_embedding` of the REST exporter: placeholder substitution,
truncation, then up to `max_retries = 3` attempts. -/
def rest_create_embedding (oracle : Nat → Option α) (text : String) : EmbedCall α :=
  restRetryGo oracle (prepText text) 0 3

/-- `create_embedding` of the GraphQL exporter: one try; on exception
`time.sleep(2)` and one retry; the second failure re-raises. The text is
submitted unchanged (no placeholder substitution, no truncation). -/
def graphql_create_embedding (oracle : Nat → Option α) (text : String) : EmbedCall α :=
  match oracle 0 with
  | some v => ⟨some v, [text], []⟩
  | none =>
    match oracle 1 with
    | some v => ⟨some v, [text, text], [2]⟩
    | none => ⟨none, [text, text], [2]⟩

/-! ## Vector ids -/

/-- Decimal digit characters of `n`, as Python's f-string interpolation
of a non-negative int renders them. -/
def natDecimal (n : Nat) : List Char :=
  if n < 10 then [Char.ofNat (48 + n)]
  else natDecimal (n / 10) ++ [Char.ofNat (48 + n % 10)]
termination_by n
decreasing_by exact Nat.div_lt_self (by omega) (by omega)

/-- `f"fireflies_{transcript_id}_{chunk['metadata']['chunk_index']}"`
(the GraphQL exporter's upsert/record id). -/
def graphqlVectorId (transcript_id : String) (chunk_index : Nat) : String :=
  "fireflies_" ++ transcript_id ++ "_" ++ String.mk (natDecimal chunk_index)

/-- `vector_id = f"fireflies_{transcript_id}"` (the REST exporter, which
emits exactly one record per transcript). -/
def restVectorId (transcript_id : String) : String :=
  "fireflies_" ++ transcript_id

/-- Left-to-right decimal valuation of a digit-character list. -/
def digitsVal (l : List Char) : Nat := l.foldl (fun a c => a * 10 + (c.toNat - 48)) 0

/-! ## Main-loop event order (local writes vs. checkpoint persists)

The two `main` loops are modelled as traces of bookkeeping events, the
external services abstracted as outcome parameters: for the GraphQL
exporter, each listed transcript maps to `none` (fetch failed / empty
details) or to the list of its chunks' embedding outcomes; for the REST
exporter, `ok tid` tells whether `process_transcript(tid)` produced a
record (fetch and its single embedding both succeeded). -/

/-- Observable bookkeeping events of one run: a successful embedding of
chunk `i` of transcript `tid`, the append of that chunk's record to the
local output sink, and a persist of checkpoint state `ids`. -/
inductive Event where
  | embed (tid : String) (i : Nat)
  | writeLocal (tid : String) (i : Nat)
  | checkpoint (ids : List String)
deriving DecidableEq, Repr

/-- Chunk-loop events of the GraphQL exporter for one transcript: a chunk
whose embedding succeeds is immediately written to the output file; a
failed embedding is caught, logged and the chunk skipped. -/
def perChunkEvents (tid : String) : Nat → List Bool → List Event
  | _, [] => []
  | i, true :: bs =>
    Event.embed tid i :: Event.writeLocal tid i :: perChunkEvents tid (i + 1) bs
  | i, false :: bs => perChunkEvents tid (i + 1) bs

/-- The GraphQL exporter's transcript loop: a fetched transcript with a
non-empty chunk list has its chunks embedded and written one by one and
its id is then appended to `processed_transcripts.txt` (the persisted
checkpoint, loaded as `ck`); a failed fetch or an empty chunk list skips
the transcript with no checkpoint update. -/
def graphqlRun (ck : List String) : List (String × Option (List Bool)) → List Event
  | [] => []
  | (_, none) :: rest => graphqlRun ck rest
  | (tid, some bs) :: rest =>
    if bs = [] then graphqlRun ck rest
    else perChunkEvents tid 0 bs ++
      Event.checkpoint (ck ++ [tid]) :: graphqlRun (ck ++ [tid]) rest

/-- `for i in range(0, len(ids), batch_size)` slicing of the REST
exporter's main loop; the first argument is a step-count bound (the
list's length at the initial call), which each non-empty slice of a
positive batch size stays within. -/
def toBatchesGo {α : Type} (n : Nat) : Nat → List α → List (List α)
  | 0, _ => []
  | _, [] => []
  | fuel + 1, l => if n = 0 then [] else l.take n :: toBatchesGo n fuel (l.drop n)

/-- `ids` cut into consecutive slices of length `batch_size`. -/
def toBatches {α : Type} (n : Nat) (l : List α) : List (List α) :=
  toBatchesGo n l.length l

/-- The REST exporter's batch loop: every transcript of the batch is
processed (its embedding happens inside `process_transcript`), then
`save_checkpoint` persists the grown checkpoint, and only after that are
the batch's records appended to the output file. -/
def restRun (ck : List String) (ok : String → Bool) : List (List String) → List Event
  | [] => []
  | batch :: batches =>
    ((batch.filter ok).map (fun t => Event.embed t 0)) ++
      Event.checkpoint (ck ++ batch.filter ok) ::
        (((batch.filter ok).map (fun t => Event.writeLocal t 0)) ++
          restRun (ck ++ batch.filter ok) ok batches)

/-- The spec's ordering property as a trace checker: at every persisted
checkpoint, every chunk embedded so far whose transcript id is in the
checkpoint has already been written to the local sink. -/
def writesCovered : List (String × Nat) → List (String × Nat) → List Event → Bool
  | emb, wr, Event.embed t i :: rest => writesCovered ((t, i) :: emb) wr rest
  | emb, wr, Event.writeLocal t i :: rest => writesCovered emb ((t, i) :: wr) rest
  | emb, wr, Event.checkpoint ids :: rest =>
    emb.all (fun p => !(decide (p.1 ∈ ids)) || decide (p ∈ wr)) && writesCovered emb wr rest
  | _, _, [] => true

/-- A run never persists a checkpoint covering an embedded-but-unwritten
chunk. -/
def traceOK (tr : List Event) : Bool := writesCovered [] [] tr

/-! ## Theorems -/

/-! ## Chunker lemmas -/

/-- Reading the blocks of `groupGo` back as a flat sentence list recovers
the already-accumulated sentences followed by the remaining input. -/
theorem groupGo_join (rest : List Sentence) : ∀ cs blk acc,
    ((groupGo cs blk acc rest).map (·.sentences)).flatten =
      (acc.map (·.sentences)).flatten ++ blk ++ rest := by
  induction rest with
  | nil =>
    intro cs blk acc
    by_cases hb : blk = [] <;> simp [groupGo, hb]
  | cons s rest ih =>
    intro cs blk acc
    by_cases h : cs ≠ some (speakerName s.speaker_id) ∧ blk ≠ []
    · simp only [groupGo, if_pos h, ih]
      simp
    · simp only [groupGo, if_neg h, ih]
      simp

/-- The blocks produced by the grouping loop, re-expanded, reproduce the
original sentence order. -/
theorem mkBlocks_join (ss : List Sentence) :
    ((mkBlocks ss).map (·.sentences)).flatten = ss := by
  simpa using groupGo_join ss none [] []

/-- Indexing a list with `getD` over `range` reproduces the list. -/
theorem range_map_getD {α : Type} (l : List α) (d : α) :
    (List.range l.length).map (fun i => l.getD i d) = l := by
  induction l with
  | nil => simp
  | cons a l ih =>
    rw [List.length_cons, List.range_succ_eq_map, List.map_cons, List.map_map]
    refine congrArg₂ List.cons rfl ?_
    calc List.map ((fun i => (a :: l).getD i d) ∘ Nat.succ) (List.range l.length)
        = List.map (fun i => l.getD i d) (List.range l.length) := by
          apply List.map_congr_left
          intro i _
          simp [List.getD]
      _ = l := ih

/-- The chunk list's speakers are exactly the block speakers, in order. -/
theorem process_transcript_speakers (t : Transcript) :
    (process_transcript t).map (·.speaker) = (mkBlocks t.sentences).map (·.speaker) := by
  unfold process_transcript
  rw [List.map_map]
  have h := congrArg (List.map (·.speaker)) (range_map_getD (mkBlocks t.sentences) default)
  rw [List.map_map] at h
  exact h

/-- Adjacent-speaker invariant of the grouping loop: if the accumulated
blocks (with the open block appended, when non-empty) have pairwise
distinct adjacent speakers, so does the final block list. -/
theorem groupGo_chain (rest : List Sentence) : ∀ cs blk acc,
    (blk = [] → acc = []) →
    (blk ≠ [] → cs ≠ none) →
    List.Chain' (· ≠ ·)
      ((acc.map (·.speaker)) ++ (if blk = [] then [] else [cs.getD ""])) →
    List.Chain' (· ≠ ·) ((groupGo cs blk acc rest).map (·.speaker)) := by
  induction rest with
  | nil =>
    intro cs blk acc _ _ hchain
    by_cases hb : blk = [] <;> simp [groupGo, hb] <;> simpa [hb] using hchain
  | cons s rest ih =>
    intro cs blk acc hempty hcs hchain
    by_cases h : cs ≠ some (speakerName s.speaker_id) ∧ blk ≠ []
    · rw [groupGo, if_pos h]
      apply ih
      · intro hfalse; exact absurd hfalse (by simp)
      · intro _; exact Option.some_ne_none _
      · obtain ⟨hne, hblk⟩ := h
        obtain ⟨nm, hnm⟩ := Option.ne_none_iff_exists'.mp (hcs hblk)
        rw [if_neg hblk] at hchain
        simp only [List.map_append, List.map_cons, List.map_nil, if_neg (by simp : ¬([s] = []))]
        rw [List.chain'_append]
        refine ⟨by simpa using hchain, List.chain'_singleton _, ?_⟩
        intro x hx y hy
        simp only [List.head?_cons, Option.mem_def, Option.some.injEq] at hy
        rw [List.getLast?_concat] at hx
        simp only [Option.mem_def, Option.some.injEq] at hx
        subst hx; subst hy
        rw [hnm, Option.getD_some]
        rw [hnm] at hne
        simpa using hne
    · rw [groupGo, if_neg h]
      apply ih
      · intro hfalse; exact absurd hfalse (by simp)
      · intro _; exact Option.some_ne_none _
      · rw [not_and_or, not_not] at h
        rcases h with h | h
        · rw [if_neg (by simp : ¬(blk ++ [s] = []))]
          by_cases hb : blk = []
          · rw [hempty hb]
            simp
          · rw [if_neg hb] at hchain
            rw [h] at hchain
            simpa using hchain
        · rw [not_not] at h
          rw [hempty h]
          simp

/-- The chain invariant holds for `mkBlocks` from the initial loop state. -/
theorem mkBlocks_chain (ss : List Sentence) :
    List.Chain' (· ≠ ·) ((mkBlocks ss).map (·.speaker)) := by
  apply groupGo_chain ss none [] []
  · intro _; rfl
  · intro h; exact absurd rfl h
  · simp

/-- C3: for every transcript, the produced chunks carry `chunk_index`
values exactly `0..totalChunks-1` in output order, every chunk's
`total_chunks` equals the number of speaker blocks, and concatenating the
blocks' sentence sequences in chunk order reproduces the transcript's
original utterance order. -/
theorem chunker_index_total_and_concat (t : Transcript) :
    (process_transcript t).map (·.chunk_index) = List.range (mkBlocks t.sentences).length ∧
    (process_transcript t).map (·.total_chunks) =
      List.replicate (mkBlocks t.sentences).length (mkBlocks t.sentences).length ∧
    ((mkBlocks t.sentences).map (·.sentences)).flatten = t.sentences := by
  refine ⟨?_, ?_, mkBlocks_join t.sentences⟩
  · unfold process_transcript
    rw [List.map_map]
    exact (List.map_congr_left fun i _ => rfl).trans (List.map_id _)
  · unfold process_transcript
    rw [List.map_map]
    trans List.map (fun _ => (mkBlocks t.sentences).length) (List.range (mkBlocks t.sentences).length)
    · exact List.map_congr_left fun i _ => rfl
    · rw [List.map_const', List.length_range]

/-- C4: no two consecutive chunks of a transcript share the same speaker
label (each chunk is a maximal speaker run). -/
theorem chunker_adjacent_speakers_distinct (t : Transcript) :
    List.Chain' (· ≠ ·) ((process_transcript t).map (·.speaker)) := by
  rw [process_transcript_speakers]
  exact mkBlocks_chain t.sentences

/-- C5: on the utterance sequence `[(s1,"hi"), (s1,"there"), (s2,"hey")]`
the chunker yields exactly two chunks: chunk 0 with speaker `Speaker 1`,
space-joined text `"hi there"` and next speaker `Speaker 2`; chunk 1 with
speaker `Speaker 2`, text `"hey"` and previous speaker `Speaker 1`. -/
theorem chunker_two_speaker_example :
    process_transcript ⟨"t1", "T", "d", 0, [], [⟨"hi", 1⟩, ⟨"there", 1⟩, ⟨"hey", 2⟩]⟩ =
      [⟨"hi there", "t1", "T", "Speaker 1", "None", "Speaker 2", [], "d", 0, 0, 2⟩,
       ⟨"hey", "t1", "T", "Speaker 2", "Speaker 1", "None", [], "d", 0, 1, 2⟩] := by
  decide

/-- C10: for every transcript with at least one utterance, the first
chunk's `prev_speaker` and the last chunk's `next_speaker` are the
literal string `"None"` (not a null value). -/
theorem chunker_sentinel_none (t : Transcript) (h : t.sentences ≠ []) :
    Option.map (·.prev_speaker) (process_transcript t).head? = some "None" ∧
    Option.map (·.next_speaker) (process_transcript t).getLast? = some "None" := by
  have hb : mkBlocks t.sentences ≠ [] := by
    intro hb
    apply h
    have hj := mkBlocks_join t.sentences
    rw [hb] at hj
    simpa using hj.symm
  obtain ⟨m, hm⟩ : ∃ m, (mkBlocks t.sentences).length = m + 1 :=
    ⟨(mkBlocks t.sentences).length - 1, by
      have := List.length_pos.mpr hb
      omega⟩
  constructor
  · show Option.map (·.prev_speaker)
      ((List.range (mkBlocks t.sentences).length).map (mkChunk t (mkBlocks t.sentences))).head? =
        some "None"
    rw [hm, List.range_succ_eq_map, List.map_cons, List.head?_cons]
    simp [mkChunk]
  · show Option.map (·.next_speaker)
      ((List.range (mkBlocks t.sentences).length).map (mkChunk t (mkBlocks t.sentences))).getLast? =
        some "None"
    rw [hm, List.range_succ, List.map_append, List.map_cons, List.map_nil, List.getLast?_concat]
    simp [mkChunk, hm]

/-- Witness for C10 at a one-sentence transcript. -/
theorem chunker_sentinel_none_witness :
    Option.map (·.prev_speaker)
      (process_transcript ⟨"t", "T", "d", 0, [], [⟨"x", 1⟩]⟩).head? = some "None" ∧
    Option.map (·.next_speaker)
      (process_transcript ⟨"t", "T", "d", 0, [], [⟨"x", 1⟩]⟩).getLast? = some "None" :=
  chunker_sentinel_none ⟨"t", "T", "d", 0, [], [⟨"x", 1⟩]⟩ (by decide)

/-- C2: in both exporters a fresh run (no `--force`) selects exactly the
listed ids that are not in the loaded checkpoint, keeping list order
(the selection is a sublist of the source listing); in particular, for a
checkpoint `{A, B}` and source listing `[A, B, C]`, only `C` remains. -/
theorem checkpoint_filter_exact :
    (∀ x ids p, x ∈ restFilter ids p ↔ (x ∈ ids ∧ x ∉ p)) ∧
    (∀ ids p, (restFilter ids p).Sublist ids) ∧
    (∀ x ids p, x ∈ graphqlFilter ids p false ↔ (x ∈ ids ∧ x ∉ p)) ∧
    (∀ ids p, (graphqlFilter ids p false).Sublist ids) ∧
    restFilter ["A", "B", "C"] ["A", "B"] = ["C"] ∧
    graphqlFilter ["A", "B", "C"] ["A", "B"] false = ["C"] := by
  refine ⟨?_, ?_, ?_, ?_, by decide, by decide⟩
  · intro x ids p
    by_cases hp : p = []
    · subst hp; simp [restFilter]
    · simp [restFilter, hp, List.mem_filter]
  · intro ids p
    by_cases hp : p = []
    · simp [restFilter, hp]
    · rw [restFilter, if_neg hp]
      exact List.filter_sublist _
  · intro x ids p
    simp [graphqlFilter, List.mem_filter]
  · intro ids p
    exact List.filter_sublist _

theorem listIndex_eq_none (ids : List String) (r : String) (h : r ∉ ids) :
    listIndex r ids = none := by
  induction ids with
  | nil => rfl
  | cons x xs ih =>
    rw [List.mem_cons, not_or] at h
    rw [listIndex, if_neg (fun hx => h.1 hx.symm), ih h.2]
    rfl

theorem listIndex_found (ids : List String) (r : String) (h : r ∈ ids) :
    ∃ i, listIndex r ids = some i ∧ (ids.drop i).head? = some r := by
  induction ids with
  | nil => exact absurd h (List.not_mem_nil r)
  | cons x xs ih =>
    by_cases hx : x = r
    · exact ⟨0, by rw [listIndex, if_pos hx], by simp [hx]⟩
    · have hm : r ∈ xs := by
        rcases List.mem_cons.mp h with h1 | h1
        · exact absurd h1.symm hx
        · exact h1
      obtain ⟨i, hi, hd⟩ := ih hm
      exact ⟨i + 1, by rw [listIndex, if_neg hx, hi]; rfl, by simpa using hd⟩

/-- C9: given the filtered list `[C, D, E]` and resume id `D`, processing
starts at `D` (skipping `C`); in general a present resume id becomes the
head of the processed list, and an absent resume id leaves the full
filtered list unchanged. -/
theorem resume_from_truncates :
    applyResume ["C", "D", "E"] "D" = ["D", "E"] ∧
    (∀ ids r, r ∈ ids → (applyResume ids r).head? = some r) ∧
    (∀ ids r, r ∉ ids → applyResume ids r = ids) := by
  refine ⟨by decide, ?_, ?_⟩
  · intro ids r h
    obtain ⟨i, hi, hd⟩ := listIndex_found ids r h
    unfold applyResume
    rw [hi]
    exact hd
  · intro ids r h
    rw [applyResume, listIndex_eq_none ids r h]

/-- Witness for C9: a present and an absent resume id. -/
theorem resume_from_truncates_witness :
    (applyResume ["C", "D", "E"] "D").head? = some "D" ∧
    applyResume ["C", "E"] "D" = ["C", "E"] :=
  ⟨resume_from_truncates.2.1 ["C", "D", "E"] "D" (by decide),
   resume_from_truncates.2.2 ["C", "E"] "D" (by decide)⟩

theorem prepText_ne_empty (text : String) : prepText text ≠ "" := by
  unfold prepText
  by_cases h : text = ""
  · subst h; decide
  · simp only [if_neg h]
    by_cases hl : text.length > 8000
    · rw [if_pos hl]
      intro hcon
      have hdata : text.data.take 8000 = [] := congrArg String.data hcon
      have hlen := congrArg List.length hdata
      simp [List.length_take] at hlen
      have hlen2 : text.length = text.data.length := rfl
      omega
    · rw [if_neg hl]; exact h

theorem restRetryGo_submissions {α : Type} (oracle : Nat → Option α) (t : String) :
    ∀ (remaining attempt : Nat) (s : String),
      s ∈ (restRetryGo oracle t attempt remaining).submissions → s = t := by
  intro remaining
  induction remaining with
  | zero =>
    intro attempt s hs
    exact absurd hs (List.not_mem_nil s)
  | succ remaining ih =>
    intro attempt s hs
    rw [restRetryGo] at hs
    cases horacle : oracle attempt with
    | some v =>
      rw [horacle] at hs
      simpa using hs
    | none =>
      rw [horacle] at hs
      by_cases hr : remaining = 0
      · rw [if_pos hr] at hs
        simpa using hs
      · rw [if_neg hr] at hs
        simp only [List.mem_cons] at hs
        rcases hs with hs | hs
        · exact hs
        · exact ih (attempt + 1) s hs

/-- C6 (amended): the REST `create_embedding` never submits an empty
string to the embedding service — empty input is replaced by the
placeholder `"Empty transcript"` before any attempt. (The GraphQL
variant has no such substitution; see the counterexample.) -/
theorem rest_embedding_never_empty (oracle : Nat → Option Nat) (text : String) :
    ((rest_create_embedding oracle text).submissions).contains "" = false := by
  rw [Bool.eq_false_iff]
  intro hcon
  have hmem : "" ∈ (rest_create_embedding oracle text).submissions := by
    simpa using hcon
  have heq := restRetryGo_submissions oracle (prepText text) 3 0 "" hmem
  exact prepText_ne_empty text heq.symm

/-- C6 counterexample: the GraphQL `create_embedding` submits its text
argument verbatim, so an empty chunk text reaches the embedding service
unreplaced. -/
theorem graphql_embedding_submits_empty :
    ((graphql_create_embedding (fun _ => some 0) "").submissions).contains "" = true := by
  rfl

/-- C7 (amended): the REST `create_embedding` makes up to 3 attempts with
doubling delays 1 s then 2 s, so a service failing twice then succeeding
yields the successful vector at exactly 3 submissions, and after three
failures it returns `None` (the caller then skips the transcript); the
GraphQL `create_embedding` makes at most 2 attempts with one fixed 2 s
pause and fails on the second failure, so the fail-twice-then-succeed
service yields no result there (the caller catches and skips the chunk). -/
theorem embedding_retry_behaviour (oracle : Nat → Option Nat) (v : Nat) (text : String)
    (h0 : oracle 0 = none) (h1 : oracle 1 = none) :
    (oracle 2 = some v →
      rest_create_embedding oracle text =
        ⟨some v, [prepText text, prepText text, prepText text], [1, 2]⟩) ∧
    (oracle 2 = none →
      rest_create_embedding oracle text =
        ⟨none, [prepText text, prepText text, prepText text], [1, 2]⟩) ∧
    graphql_create_embedding oracle text = ⟨none, [text, text], [2]⟩ := by
  refine ⟨?_, ?_, ?_⟩
  · intro h2
    simp [rest_create_embedding, restRetryGo, h0, h1, h2]
  · intro h2
    simp [rest_create_embedding, restRetryGo, h0, h1, h2]
  · simp [graphql_create_embedding, h0, h1]

/-- Witness for C7 at the concrete fail-twice-then-succeed oracle. -/
theorem embedding_retry_behaviour_witness :
    rest_create_embedding (fun n => if n < 2 then none else some 7) "x" =
      ⟨some 7, [prepText "x", prepText "x", prepText "x"], [1, 2]⟩ ∧
    graphql_create_embedding (fun n => if n < 2 then none else some 7) "x" =
      ⟨none, ["x", "x"], [2]⟩ :=
  ⟨(embedding_retry_behaviour (fun n => if n < 2 then none else some 7) 7 "x" rfl rfl).1 rfl,
   (embedding_retry_behaviour (fun n => if n < 2 then none else some 7) 7 "x" rfl rfl).2.2⟩

/-- C7 counterexample: under the GraphQL exporter a service that fails
twice then succeeds does not yield the successful result — the call gives
up after its second attempt. -/
theorem graphql_retry_gives_up_early :
    (graphql_create_embedding (fun n => if n < 2 then none else some 7) "x").result = none := by
  rfl

theorem digitChar_ne_underscore : ∀ d, d < 10 → Char.ofNat (48 + d) ≠ '_' := by decide

theorem digitChar_toNat : ∀ d, d < 10 → (Char.ofNat (48 + d)).toNat = 48 + d := by decide

theorem natDecimal_no_underscore (n : Nat) : ∀ c ∈ natDecimal n, c ≠ '_' := by
  induction n using Nat.strong_induction_on with
  | _ n ih =>
    intro c hc
    rw [natDecimal] at hc
    by_cases h : n < 10
    · rw [if_pos h] at hc
      rw [List.mem_singleton] at hc
      subst hc
      exact digitChar_ne_underscore n h
    · rw [if_neg h] at hc
      rw [List.mem_append] at hc
      rcases hc with hc | hc
      · exact ih (n / 10) (Nat.div_lt_self (by omega) (by omega)) c hc
      · rw [List.mem_singleton] at hc
        subst hc
        exact digitChar_ne_underscore (n % 10) (Nat.mod_lt n (by omega))

theorem digitsVal_concat (l : List Char) (c : Char) :
    digitsVal (l ++ [c]) = digitsVal l * 10 + (c.toNat - 48) := by
  simp [digitsVal, List.foldl_append]

theorem natDecimal_val (n : Nat) : digitsVal (natDecimal n) = n := by
  induction n using Nat.strong_induction_on with
  | _ n ih =>
    rw [natDecimal]
    by_cases h : n < 10
    · rw [if_pos h]
      simp [digitsVal, digitChar_toNat n h]
    · rw [if_neg h, digitsVal_concat, ih (n / 10) (Nat.div_lt_self (by omega) (by omega)),
        digitChar_toNat (n % 10) (Nat.mod_lt n (by omega))]
      omega

theorem natDecimal_injective {m n : Nat} (h : natDecimal m = natDecimal n) : m = n := by
  rw [← natDecimal_val m, ← natDecimal_val n, h]

theorem string_data_append (s t : String) : (s ++ t).data = s.data ++ t.data := rfl

theorem string_ext {s t : String} (h : s.data = t.data) : s = t := by
  cases s
  cases t
  exact congrArg String.mk h

/-- Splitting at an underscore is unambiguous when the part before the
underscore is underscore-free. -/
theorem append_underscore_inj : ∀ (a b c d : List Char),
    (∀ x ∈ a, x ≠ '_') → (∀ x ∈ b, x ≠ '_') →
    a ++ '_' :: c = b ++ '_' :: d → a = b ∧ c = d := by
  intro a
  induction a with
  | nil =>
    intro b c d _ hb heq
    cases b with
    | nil => simpa using heq
    | cons y ys =>
      simp only [List.nil_append, List.cons_append, List.cons.injEq] at heq
      exact absurd heq.1.symm (hb y (List.mem_cons_self y ys))
  | cons x xs ih =>
    intro b c d ha hb heq
    cases b with
    | nil =>
      simp only [List.cons_append, List.nil_append, List.cons.injEq] at heq
      exact absurd heq.1 (ha x (List.mem_cons_self x xs))
    | cons y ys =>
      simp only [List.cons_append, List.cons.injEq] at heq
      obtain ⟨hxy, heq2⟩ := heq
      obtain ⟨h1, h2⟩ := ih ys c d (fun z hz => ha z (List.mem_cons_of_mem x hz))
        (fun z hz => hb z (List.mem_cons_of_mem y hz)) heq2
      exact ⟨by rw [hxy, h1], h2⟩

theorem graphqlVectorId_data (t : String) (i : Nat) :
    (graphqlVectorId t i).data = "fireflies_".data ++ (t.data ++ '_' :: natDecimal i) := by
  show ("fireflies_" ++ t ++ "_" ++ String.mk (natDecimal i)).data = _
  rw [string_data_append, string_data_append, string_data_append]
  have hu : ("_" : String).data = ['_'] := rfl
  rw [hu, List.append_assoc, List.append_assoc, List.singleton_append]

theorem graphqlVectorId_inj_aux {t₁ t₂ : String} {i₁ i₂ : Nat}
    (h : graphqlVectorId t₁ i₁ = graphqlVectorId t₂ i₂) : t₁ = t₂ ∧ i₁ = i₂ := by
  have hd := congrArg String.data h
  rw [graphqlVectorId_data, graphqlVectorId_data] at hd
  have hcore := List.append_cancel_left hd
  have hrev := congrArg List.reverse hcore
  rw [List.reverse_append, List.reverse_append, List.reverse_cons, List.reverse_cons,
    List.append_assoc, List.append_assoc, List.singleton_append, List.singleton_append] at hrev
  obtain ⟨h1, h2⟩ := append_underscore_inj _ _ _ _
    (fun x hx => natDecimal_no_underscore i₁ x (List.mem_reverse.mp hx))
    (fun x hx => natDecimal_no_underscore i₂ x (List.mem_reverse.mp hx)) hrev
  constructor
  · exact string_ext (List.reverse_injective h2)
  · exact natDecimal_injective (List.reverse_injective h1)

/-- C8: each exporter's vector id is a pure deterministic function of its
inputs, stable under recomputation; in the GraphQL exporter distinct
`(transcriptId, chunkIndex)` pairs give distinct ids (the decimal index
suffix contains no underscore, so the id splits unambiguously at its last
underscore), and in the REST exporter — which emits one record per
transcript — distinct transcript ids give distinct ids, so repeated
upsert of the same chunk always reuses the same id. -/
theorem vector_id_deterministic_injective :
    (∀ t i, graphqlVectorId t i = graphqlVectorId t i) ∧
    (∀ t₁ i₁ t₂ i₂, graphqlVectorId t₁ i₁ = graphqlVectorId t₂ i₂ → t₁ = t₂ ∧ i₁ = i₂) ∧
    (∀ t₁ t₂, restVectorId t₁ = restVectorId t₂ → t₁ = t₂) := by
  refine ⟨fun t i => rfl, fun t₁ i₁ t₂ i₂ h => graphqlVectorId_inj_aux h, fun t₁ t₂ h => ?_⟩
  have hd := congrArg String.data h
  have e : ∀ t : String, (restVectorId t).data = "fireflies_".data ++ t.data := fun t => rfl
  rw [e, e] at hd
  exact string_ext (List.append_cancel_left hd)

/-- Witness for C8 at concrete inputs. -/
theorem vector_id_deterministic_injective_witness :
    graphqlVectorId "a" 3 = graphqlVectorId "a" 3 ∧
    ("a" = "a" ∧ (3 : Nat) = 3) ∧ "b" = "b" :=
  ⟨vector_id_deterministic_injective.1 "a" 3,
   vector_id_deterministic_injective.2.1 "a" 3 "a" 3 rfl,
   vector_id_deterministic_injective.2.2 "b" "b" rfl⟩

theorem perChunkEvents_covered (tid : String) : ∀ (bs : List Bool) (i : Nat)
    (emb wr : List (String × Nat)) (rest : List Event),
    (∀ p ∈ emb, p ∈ wr) →
    ∃ emb' wr', (∀ p ∈ emb', p ∈ wr') ∧
      writesCovered emb wr (perChunkEvents tid i bs ++ rest) = writesCovered emb' wr' rest := by
  intro bs
  induction bs with
  | nil => intro i emb wr rest hsub; exact ⟨emb, wr, hsub, rfl⟩
  | cons b bs ih =>
    intro i emb wr rest hsub
    cases b with
    | false => exact ih (i + 1) emb wr rest hsub
    | true =>
      have hsub' : ∀ p ∈ ((tid, i) :: emb), p ∈ ((tid, i) :: wr) := by
        intro p hp
        rcases List.mem_cons.mp hp with h | h
        · exact h ▸ List.mem_cons_self _ _
        · exact List.mem_cons_of_mem _ (hsub p h)
      exact ih (i + 1) ((tid, i) :: emb) ((tid, i) :: wr) rest hsub'

theorem graphqlRun_covered : ∀ (inputs : List (String × Option (List Bool)))
    (ck : List String) (emb wr : List (String × Nat)),
    (∀ p ∈ emb, p ∈ wr) →
    writesCovered emb wr (graphqlRun ck inputs) = true := by
  intro inputs
  induction inputs with
  | nil => intro ck emb wr _; rfl
  | cons x rest ih =>
    obtain ⟨tid, outcome⟩ := x
    cases outcome with
    | none => intro ck emb wr hsub; exact ih ck emb wr hsub
    | some bs =>
      intro ck emb wr hsub
      show writesCovered emb wr
        (if bs = [] then graphqlRun ck rest
         else perChunkEvents tid 0 bs ++
           Event.checkpoint (ck ++ [tid]) :: graphqlRun (ck ++ [tid]) rest) = true
      by_cases hbs : bs = []
      · rw [if_pos hbs]
        exact ih ck emb wr hsub
      · rw [if_neg hbs]
        obtain ⟨e', w', hs, heq⟩ := perChunkEvents_covered tid bs 0 emb wr
          (Event.checkpoint (ck ++ [tid]) :: graphqlRun (ck ++ [tid]) rest) hsub
        rw [heq]
        show (e'.all (fun p => !(decide (p.1 ∈ ck ++ [tid])) || decide (p ∈ w')) &&
          writesCovered e' w' (graphqlRun (ck ++ [tid]) rest)) = true
        rw [Bool.and_eq_true]
        refine ⟨?_, ih (ck ++ [tid]) e' w' hs⟩
        rw [List.all_eq_true]
        intro p hp
        have hw := hs p hp
        simp [hw]

/-- C1 (amended): in the GraphQL exporter every embedded chunk is written
to the local sink before any checkpoint persist covering its transcript,
for every loaded checkpoint and every fetch/embedding outcome; in the
REST exporter `save_checkpoint` runs before the batch's records are
appended to the output file, so the claimed write-before-checkpoint order
fails there already for a single one-transcript batch. -/
theorem run_write_checkpoint_order :
    (∀ (ck : List String) (inputs : List (String × Option (List Bool))),
      traceOK (graphqlRun ck inputs) = true) ∧
    traceOK (restRun [] (fun _ => true) (toBatches 1 ["T"])) = false := by
  constructor
  · intro ck inputs
    exact graphqlRun_covered inputs ck [] [] (fun p hp => absurd hp (List.not_mem_nil p))
  · rfl

/-- C1 counterexample: a REST run over the single transcript `T` with
batch size 1 persists the checkpoint containing `T` while `T`'s embedded
record is not yet appended locally, refuting the claimed order. -/
theorem rest_checkpoint_before_write :
    traceOK (restRun [] (fun _ => true) (toBatches 1 ["T"])) = false := by
  rfl
